import Mathlib

/-!
Verification of `src/anthem_ny_ppo_scraper.py`.

Strings are modelled as `List Char` (`Str`); Python's `str.upper()` as a
character-wise `Char.toUpper` (the constants compared against are ASCII),
`in` (substring test) as `containsSub`, and `str.split` on a one-character
separator as `pySplit`.  Dictionaries with string keys are modelled as
association lists, and `dict.get(k, "")` by `Option.getD` on optional
record fields.
-/

/-- Strings of the program, modelled as lists of characters. -/
abbrev Str := List Char

/-- Turn a Lean string literal into the `Str` model. -/
def chars (s : String) : Str := s.data

/-- Python `s.upper()` (character-wise; the program only compares against ASCII). -/
def upper (s : Str) : Str := s.map Char.toUpper

/-- Python `hay.startswith(needle)`, the building block of the substring test. -/
def isPrefixB : Str → Str → Bool
  | [], _ => true
  | _ :: _, [] => false
  | a :: as, b :: bs => decide (a = b) && isPrefixB as bs

/-- Python `needle in hay`: contiguous-substring test. -/
def containsSub (needle : Str) : Str → Bool
  | [] => isPrefixB needle []
  | b :: bs => isPrefixB needle (b :: bs) || containsSub needle bs

/-- Python `s.split(c)` for a one-character separator `c`
(always returns a non-empty list of pieces). -/
def pySplit (c : Char) : Str → List Str
  | [] => [[]]
  | a :: as =>
    if a = c then [] :: pySplit c as
    else
      match pySplit c as with
      | [] => [[a]]
      | s :: rest => (a :: s) :: rest

/-- `extract_file_id` (lines 43-55): `url.split("?")[0].split("/")[-1]`. -/
def extract_file_id (url : Str) : Str :=
  let base := (pySplit '?' url).headD []
  (pySplit '/' base).getLastD []

/-- The spec's wording of the derived file identity: remove everything from
the first `?` onward, then take the part after the last `/`. -/
def extractFileIdSpec (url : Str) : Str :=
  let base := url.takeWhile (fun a => decide (a ≠ '?'))
  (base.reverse.takeWhile (fun a => decide (a ≠ '/'))).reverse

/-- One element of `in_network_files`; a field is `none` when the key is
absent from the JSON object (`dict.get` with default `""`). -/
structure FileEntry where
  description : Option Str
  location : Option Str
deriving DecidableEq

/-- One element of the `matching_files` list built by `is_ny_ppo_network`
(lines 92-96). -/
structure MatchResult where
  url : Str
  description : Str
  file_id : Str
deriving DecidableEq

/-- One element of `reporting_structure`; `in_network_files` is `none` when
the key is absent (`item.get("in_network_files", [])`, line 122). -/
structure IndexRecord where
  in_network_files : Option (List FileEntry)
deriving DecidableEq

/-- The fixed list `ny_indicators` (line 84). -/
def ny_indicators : List Str :=
  [chars (r"NEW YORK"), chars (r" NY "), chars (r" NY:"), chars (r"_NY_"), chars (r"(NY)")]

/-- `"PPO" in desc_upper` (line 81). -/
def is_ppo_b (desc_upper : Str) : Bool := containsSub (chars (r"PPO")) desc_upper

/-- Lines 85-86: one of the fixed region markers occurs, or both
`"HIGHMARK"` and a bare `"NY"` occur. -/
def is_ny_b (desc_upper : Str) : Bool :=
  ny_indicators.any (fun indicator => containsSub indicator desc_upper) ||
    (containsSub (chars (r"HIGHMARK")) desc_upper && containsSub (chars (r"NY")) desc_upper)

/-- Line 89: `"EXCELLUS" in desc_upper and is_ppo`. -/
def is_excellus_ppo_b (desc_upper : Str) : Bool :=
  containsSub (chars (r"EXCELLUS")) desc_upper && is_ppo_b desc_upper

/-- The per-entry match test of the loop body (lines 76-91):
`(is_ppo and is_ny) or is_excellus_ppo` on the uppercased description. -/
def fileMatches (fi : FileEntry) : Bool :=
  let desc_upper := upper (fi.description.getD [])
  (is_ppo_b desc_upper && is_ny_b desc_upper) || is_excellus_ppo_b desc_upper

/-- The dict appended for a matching entry (lines 92-96). -/
def mkMatch (fi : FileEntry) : MatchResult :=
  { url := fi.location.getD []
    description := fi.description.getD []
    file_id := extract_file_id (fi.location.getD []) }

/-- `is_ny_ppo_network` (lines 58-98): collect the matching entries in
input order and pair the list with `len(matching_files) > 0`. -/
def is_ny_ppo_network (in_network_files : List FileEntry) : Bool × List MatchResult :=
  let matching_files := in_network_files.foldl
    (fun acc fi => if fileMatches fi then acc ++ [mkMatch fi] else acc) []
  (decide (matching_files.length > 0), matching_files)

/-- `file_ids_by_network` (line 113): `network -> {file_id: sample_url}`,
modelled as an association list (Python dicts keep insertion order). -/
abbrev Agg := List (Str × List (Str × Str))

/-- Association-list lookup with decidable string keys (`k in d` / `d[k]`). -/
def lookupA {α : Type} (k : Str) : List (Str × α) → Option α
  | [] => none
  | (k', v) :: rest => if k' = k then some v else lookupA k rest

/-- Lines 131-136: create the inner dict for a new network, then store the
URL only when the file id is not yet present (first-seen policy). -/
def insertMatch (agg : Agg) (network file_id url : Str) : Agg :=
  match agg with
  | [] => [(network, [(file_id, url)])]
  | (n, files) :: rest =>
    if n = network then
      (n, if (lookupA file_id files).isSome then files else files ++ [(file_id, url)]) :: rest
    else
      (n, files) :: insertMatch rest network file_id url

/-- One iteration of the inner `for f in matching_files` loop (lines 126-136). -/
def step (agg : Agg) (m : MatchResult) : Agg :=
  insertMatch agg m.description m.file_id m.url

/-- Feed a list of match results through the aggregator. -/
def aggFrom (agg : Agg) (ms : List MatchResult) : Agg := ms.foldl step agg

/-- One iteration of the outer loop (lines 119-136): read
`in_network_files` with default `[]`, run the predicate, and aggregate the
matching files when the record matches. -/
def processItem (agg : Agg) (item : IndexRecord) : Agg :=
  let res := is_ny_ppo_network (item.in_network_files.getD [])
  if res.1 then aggFrom agg res.2 else agg

/-- The whole aggregation pass of `main` over the streamed records. -/
def runPipeline (records : List IndexRecord) : Agg :=
  records.foldl processItem []

/-- Lookup of the URL stored for a (network, file id) pair. -/
def lookup2 (agg : Agg) (network file_id : Str) : Option Str :=
  match lookupA network agg with
  | none => none
  | some files => lookupA file_id files

/-- The URL of the first match result carrying a given (network, file id)
pair, in input order. -/
def firstUrl (ms : List MatchResult) (network file_id : Str) : Option Str :=
  (ms.find? (fun m => decide (m.description = network) && decide (m.file_id = file_id))).map
    (fun m => m.url)

/-- Well-formedness of the aggregator state: network keys are distinct and
each network's file-id keys are distinct. -/
def WFAgg (agg : Agg) : Prop :=
  (agg.map Prod.fst).Nodup ∧ ∀ p ∈ agg, (p.2.map Prod.fst).Nodup

/-! ### The matching loop as filter-and-map -/

lemma foldl_matching_append (fs : List FileEntry) (acc : List MatchResult) :
    fs.foldl (fun acc fi => if fileMatches fi then acc ++ [mkMatch fi] else acc) acc
      = acc ++ (fs.filter fileMatches).map mkMatch := by
  induction fs generalizing acc with
  | nil => simp
  | cons f fs ih =>
    cases h : fileMatches f <;>
      simp [List.foldl_cons, List.filter_cons, h, ih, List.append_assoc]

lemma is_ny_ppo_network_snd (fs : List FileEntry) :
    (is_ny_ppo_network fs).2 = (fs.filter fileMatches).map mkMatch := by
  simp [is_ny_ppo_network, foldl_matching_append]

lemma is_ny_ppo_network_fst (fs : List FileEntry) :
    (is_ny_ppo_network fs).1 = decide ((is_ny_ppo_network fs).2.length > 0) := rfl

/-! ### Spec-side wording of the predicate (section 4.2 of the spec) -/

/-- Spec: the description contains the plan-type substring, case-insensitively. -/
def specPlanType (description : Str) : Prop :=
  containsSub (chars (r"PPO")) (upper description) = true

/-- Spec: the description contains one of the fixed region markers, or the
secondary brand marker together with the bare region abbreviation. -/
def specRegion (description : Str) : Prop :=
  (∃ indicator ∈ ny_indicators, containsSub indicator (upper description) = true) ∨
    (containsSub (chars (r"HIGHMARK")) (upper description) = true ∧
      containsSub (chars (r"NY")) (upper description) = true)

/-- Spec: the description names the regional affiliate brand and the plan type. -/
def specNamedAffiliate (description : Str) : Prop :=
  containsSub (chars (r"EXCELLUS")) (upper description) = true ∧ specPlanType description

/-- Claim C1: an entry is accepted iff (its description contains the
plan-type substring "PPO" and satisfies the region rule) or (it contains
the affiliate brand "EXCELLUS" together with "PPO"), all substring tests
case-insensitive on the description; and a record matches iff at least one
of its file entries matches. -/
theorem entry_and_record_match_characterization :
    (∀ fi : FileEntry, fileMatches fi = true ↔
      ((specPlanType (fi.description.getD []) ∧ specRegion (fi.description.getD [])) ∨
        specNamedAffiliate (fi.description.getD []))) ∧
    (∀ fs : List FileEntry,
      (is_ny_ppo_network fs).1 = true ↔ ∃ fi ∈ fs, fileMatches fi = true) := by
  constructor
  · intro fi
    simp [fileMatches, is_ppo_b, is_ny_b, is_excellus_ppo_b, specPlanType, specRegion,
      specNamedAffiliate, Bool.or_eq_true, Bool.and_eq_true, List.any_eq_true]
  · intro fs
    rw [is_ny_ppo_network_fst, is_ny_ppo_network_snd]
    simp [List.length_pos, List.filter_eq_nil_iff, List.mem_filter]

/-- Claim C9: the boolean returned by `is_ny_ppo_network` is true exactly
when the returned list of matching entries is non-empty, and that list is
the in-order sublist of matching input entries (filter then enrich). -/
theorem is_ny_ppo_network_flag_and_order :
    ∀ fs : List FileEntry,
      ((is_ny_ppo_network fs).1 = true ↔ (is_ny_ppo_network fs).2 ≠ []) ∧
      (is_ny_ppo_network fs).2 = (fs.filter fileMatches).map mkMatch := by
  intro fs
  refine ⟨?_, is_ny_ppo_network_snd fs⟩
  rw [is_ny_ppo_network_fst]
  simp [List.length_pos]

/-- Claim C7: the description "Excellus BCBS PPO" is accepted through the
named-affiliate branch (`is_excellus_ppo`) although the region test
(`is_ny`) is false on it. -/
theorem excellus_bcbs_ppo_matches :
    fileMatches ⟨some (chars (r"Excellus BCBS PPO")), none⟩ = true ∧
    is_ny_b (upper (chars (r"Excellus BCBS PPO"))) = false ∧
    is_excellus_ppo_b (upper (chars (r"Excellus BCBS PPO"))) = true := by
  decide

/-- Claim C4, counterexample: "SUNNY PPO" contains the region abbreviation
"NY" (only inside the unrelated word "SUNNY") together with "PPO", yet the
predicate rejects it, because every plain region marker requires
surrounding delimiter characters. -/
theorem sunny_ppo_rejected :
    fileMatches ⟨some (chars (r"SUNNY PPO")), none⟩ = false ∧
    containsSub (chars (r"NY")) (upper (chars (r"SUNNY PPO"))) = true ∧
    containsSub (chars (r"PPO")) (upper (chars (r"SUNNY PPO"))) = true := by
  decide

/-- Claim C4, amended: a bare occurrence of "NY" inside an unrelated word
does produce a match when the description also contains "HIGHMARK"
(that branch tests the undelimited substring "NY") and "PPO". -/
theorem highmark_bare_ny_matches (d : Str) (loc : Option Str)
    (h1 : containsSub (chars (r"HIGHMARK")) (upper d) = true)
    (h2 : containsSub (chars (r"NY")) (upper d) = true)
    (h3 : containsSub (chars (r"PPO")) (upper d) = true) :
    fileMatches ⟨some d, loc⟩ = true := by
  simp [fileMatches, is_ppo_b, is_ny_b, is_excellus_ppo_b, h1, h2, h3]

/-- Witness for the amended Claim C4 at the description
"Highmark Sunny PPO", whose only occurrences of "NY" are inside "Sunny". -/
theorem highmark_bare_ny_matches_witness :
    fileMatches ⟨some (chars (r"Highmark Sunny PPO")), none⟩ = true :=
  highmark_bare_ny_matches (chars (r"Highmark Sunny PPO")) none
    (by decide) (by decide) (by decide)

/-- Claim C10: an entry with a missing description or location behaves as
if the field were the empty string (no error is possible in the model, the
functions being total), and an entry with no description never matches. -/
theorem missing_fields_default_to_empty :
    ∀ loc : Option Str,
      fileMatches ⟨none, loc⟩ = false ∧
      is_ny_ppo_network [⟨none, loc⟩] = (false, []) ∧
      ∀ d : Option Str,
        fileMatches ⟨d, loc⟩ = fileMatches ⟨some (d.getD []), some (loc.getD [])⟩ := by
  intro loc
  refine ⟨rfl, rfl, ?_⟩
  intro d
  cases d <;> rfl

/-! ### Python split versus takeWhile (for the derived file identity) -/

lemma pySplit_ne_nil (c : Char) (s : Str) : pySplit c s ≠ [] := by
  cases s with
  | nil => simp [pySplit]
  | cons a as =>
    simp only [pySplit]
    split
    · simp
    · split <;> simp

lemma takeWhile_concat_false {α : Type} {p : α → Bool} {y : α} (hy : p y = false)
    (xs : List α) : (xs ++ [y]).takeWhile p = xs.takeWhile p := by
  induction xs with
  | nil => simp [List.takeWhile_cons, hy]
  | cons x xs ih => by_cases hx : p x <;> simp [List.takeWhile_cons, hx, ih]

lemma takeWhile_append_of_forall {α : Type} {p : α → Bool} {xs : List α}
    (h : ∀ x ∈ xs, p x = true) (ys : List α) :
    (xs ++ ys).takeWhile p = xs ++ ys.takeWhile p := by
  induction xs with
  | nil => simp
  | cons x xs ih =>
    have hx : p x = true := h x (by simp)
    simp [List.takeWhile_cons, hx, ih (fun a ha => h a (by simp [ha]))]

lemma takeWhile_append_of_exists {α : Type} {p : α → Bool} {xs : List α}
    (h : ∃ x ∈ xs, p x = false) (ys : List α) :
    (xs ++ ys).takeWhile p = xs.takeWhile p := by
  induction xs with
  | nil => rcases h with ⟨x, hx, _⟩; cases hx
  | cons x xs ih =>
    by_cases hx : p x
    · rcases h with ⟨z, hz, hzf⟩
      rcases List.mem_cons.mp hz with rfl | hz'
      · rw [hx] at hzf; cases hzf
      · simp [List.takeWhile_cons, hx, ih ⟨z, hz', hzf⟩]
    · simp [List.takeWhile_cons, hx]

lemma pySplit_of_not_mem {c : Char} {s : Str} (h : c ∉ s) : pySplit c s = [s] := by
  induction s with
  | nil => rfl
  | cons a as ih =>
    have hac : ¬ a = c := fun hac => h (by simp [hac])
    have ih' : pySplit c as = [as] := ih (fun hmem => h (List.mem_cons_of_mem a hmem))
    simp [pySplit, hac, ih']

lemma getLastD_cons_of_ne_nil {α : Type} (x : α) {l : List α} (hl : l ≠ []) (d : α) :
    (x :: l).getLastD d = l.getLastD d := by
  cases l with
  | nil => exact absurd rfl hl
  | cons y ys => simp [List.getLastD_cons]

lemma headD_pySplit (c : Char) (s : Str) :
    (pySplit c s).headD [] = s.takeWhile (fun a => decide (a ≠ c)) := by
  induction s with
  | nil => rfl
  | cons a as ih =>
    by_cases hac : a = c
    · subst hac
      simp [pySplit, List.takeWhile_cons]
    · rcases hp : pySplit c as with _ | ⟨s₀, rest⟩
      · exact absurd hp (pySplit_ne_nil c as)
      · have hstep : pySplit c (a :: as) = (a :: s₀) :: rest := by simp [pySplit, hac, hp]
        rw [hstep]
        rw [hp] at ih
        simp only [List.headD_cons] at ih ⊢
        rw [List.takeWhile_cons]
        simp [hac, ih]

lemma two_le_length_pySplit_of_mem {c : Char} {s : Str} (h : c ∈ s) :
    2 ≤ (pySplit c s).length := by
  induction s with
  | nil => cases h
  | cons a as ih =>
    by_cases hac : a = c
    · subst hac
      have h1 : pySplit a as ≠ [] := pySplit_ne_nil a as
      have h2 : 1 ≤ (pySplit a as).length := List.length_pos.mpr h1
      rw [show pySplit a (a :: as) = [] :: pySplit a as from by simp [pySplit]]
      simp only [List.length_cons]
      omega
    · have hmem : c ∈ as := by
        rcases List.mem_cons.mp h with rfl | hm
        · exact absurd rfl hac
        · exact hm
      rcases hp : pySplit c as with _ | ⟨s₀, rest⟩
      · exact absurd hp (pySplit_ne_nil c as)
      · have hstep : pySplit c (a :: as) = (a :: s₀) :: rest := by simp [pySplit, hac, hp]
        have := ih hmem
        rw [hp] at this
        simp only [hstep, List.length_cons] at this ⊢
        omega

lemma getLastD_pySplit (c : Char) (s : Str) :
    (pySplit c s).getLastD [] = (s.reverse.takeWhile (fun a => decide (a ≠ c))).reverse := by
  induction s with
  | nil => rfl
  | cons a as ih =>
    by_cases hac : a = c
    · subst hac
      have h1 : pySplit a as ≠ [] := pySplit_ne_nil a as
      rw [show pySplit a (a :: as) = [] :: pySplit a as from by simp [pySplit]]
      rw [getLastD_cons_of_ne_nil [] h1]
      rw [List.reverse_cons, takeWhile_concat_false (by simp) as.reverse]
      exact ih
    · rcases hp : pySplit c as with _ | ⟨s₀, rest⟩
      · exact absurd hp (pySplit_ne_nil c as)
      · have hstep : pySplit c (a :: as) = (a :: s₀) :: rest := by simp [pySplit, hac, hp]
        cases rest with
        | nil =>
          have hnm : c ∉ as := by
            intro hmem
            have := two_le_length_pySplit_of_mem hmem
            rw [hp] at this
            simp at this
          have hs₀ : s₀ = as := by
            have := pySplit_of_not_mem hnm
            rw [hp] at this
            exact (List.cons.injEq _ _ _ _ ▸ this).1
          rw [hs₀] at hstep
          rw [hstep]
          have hall : ∀ x ∈ as.reverse ++ [a], (fun a => decide (a ≠ c)) x = true := by
            intro x hx
            rcases List.mem_append.mp hx with hx' | hx'
            · have : x ∈ as := List.mem_reverse.mp hx'
              simp
              intro he
              exact hnm (he ▸ this)
            · simp at hx'
              simp [hx', hac]
          rw [List.reverse_cons, List.takeWhile_eq_self_iff.mpr hall]
          simp
        | cons r rest' =>
          have hmem : c ∈ as := by
            by_contra hnm
            rw [pySplit_of_not_mem hnm] at hp
            simp at hp
          rw [hstep, getLastD_cons_of_ne_nil (a :: s₀) (by simp) []]
          rw [hp, getLastD_cons_of_ne_nil s₀ (by simp) []] at ih
          rw [List.reverse_cons,
            takeWhile_append_of_exists ⟨c, List.mem_reverse.mpr hmem, by simp⟩]
          exact ih

lemma extract_file_id_of_shape {a seg : Str} (q : Str)
    (ha : '?' ∉ a) (h1 : '?' ∉ seg) (h2 : '/' ∉ seg) :
    extract_file_id (a ++ '/' :: (seg ++ '?' :: q)) = seg := by
  have hassoc : a ++ '/' :: (seg ++ '?' :: q) = (a ++ '/' :: seg) ++ '?' :: q := by
    simp
  have hall : ∀ x ∈ a ++ '/' :: seg, (fun x => decide (x ≠ '?')) x = true := by
    intro x hx
    simp only [decide_eq_true_eq]
    intro he
    subst he
    rcases List.mem_append.mp hx with hx' | hx'
    · exact ha hx'
    · rcases List.mem_cons.mp hx' with h | h
      · exact absurd h (by decide)
      · exact h1 h
  have hbase : (pySplit '?' (a ++ '/' :: (seg ++ '?' :: q))).headD [] = a ++ '/' :: seg := by
    rw [headD_pySplit, hassoc, takeWhile_append_of_forall hall]
    rw [List.takeWhile_cons]
    simp
  have hall2 : ∀ x ∈ seg.reverse, (fun x => decide (x ≠ '/')) x = true := by
    intro x hx
    simp only [decide_eq_true_eq]
    intro he
    subst he
    exact h2 (List.mem_reverse.mp hx)
  rw [extract_file_id]
  rw [hbase, getLastD_pySplit]
  rw [show (a ++ '/' :: seg).reverse = (seg.reverse ++ ['/']) ++ a.reverse from by simp]
  rw [List.append_assoc, takeWhile_append_of_forall hall2]
  simp [List.takeWhile_cons]

/-- Claim C2: the derived file identity equals the spec's description
(drop everything from the first question mark, then take the part after
the last slash); hence any two URLs whose pre-query part ends in the same
slash-free final segment get the same identity, whatever their host,
earlier path and query string are. -/
theorem extract_file_id_correct :
    (∀ url : Str, extract_file_id url = extractFileIdSpec url) ∧
    ∀ a b seg q₁ q₂ : Str, '?' ∉ a → '?' ∉ b → '?' ∉ seg → '/' ∉ seg →
      extract_file_id (a ++ '/' :: (seg ++ '?' :: q₁)) =
        extract_file_id (b ++ '/' :: (seg ++ '?' :: q₂)) := by
  constructor
  · intro url
    rw [extract_file_id, extractFileIdSpec, headD_pySplit, getLastD_pySplit]
  · intro a b seg q₁ q₂ ha hb h1 h2
    rw [extract_file_id_of_shape q₁ ha h1 h2, extract_file_id_of_shape q₂ hb h1 h2]

/-- Witness for Claim C2: two mirror URLs for `file123.json.gz` with
different hosts, paths and query strings get the same derived identity. -/
theorem extract_file_id_correct_witness :
    extract_file_id
        (chars (r"https://cdn1.example/X") ++ '/' ::
          (chars (r"file123.json.gz") ++ '?' :: chars (r"sig=abc"))) =
      extract_file_id
        (chars (r"https://cdn2.example/Y") ++ '/' ::
          (chars (r"file123.json.gz") ++ '?' :: chars (r"sig=def"))) :=
  extract_file_id_correct.2 (chars (r"https://cdn1.example/X"))
    (chars (r"https://cdn2.example/Y")) (chars (r"file123.json.gz"))
    (chars (r"sig=abc")) (chars (r"sig=def"))
    (by decide) (by decide) (by decide) (by decide)

/-! ### Aggregator: lookup equations -/

lemma lookup2_nil (net fid : Str) : lookup2 [] net fid = none := rfl

lemma lookup2_cons (k : Str) (files : List (Str × Str)) (rest : Agg) (net fid : Str) :
    lookup2 ((k, files) :: rest) net fid =
      if k = net then lookupA fid files else lookup2 rest net fid := by
  by_cases h : k = net <;> simp [lookup2, lookupA, h]

lemma insertMatch_cons (k : Str) (files : List (Str × Str)) (rest : Agg) (n f u : Str) :
    insertMatch ((k, files) :: rest) n f u =
      if k = n then
        (k, if (lookupA f files).isSome then files else files ++ [(f, u)]) :: rest
      else (k, files) :: insertMatch rest n f u := rfl

lemma lookupA_append {α : Type} (k : Str) (l₁ l₂ : List (Str × α)) :
    lookupA k (l₁ ++ l₂) =
      match lookupA k l₁ with
      | some v => some v
      | none => lookupA k l₂ := by
  induction l₁ with
  | nil => rfl
  | cons q t ih =>
    obtain ⟨k', v⟩ := q
    by_cases h : k' = k <;> simp [lookupA, h, ih]

lemma lookupA_eq_none_iff {α : Type} (k : Str) (l : List (Str × α)) :
    lookupA k l = none ↔ k ∉ l.map Prod.fst := by
  induction l with
  | nil => simp [lookupA]
  | cons q t ih =>
    obtain ⟨k', v⟩ := q
    by_cases h : k' = k
    · subst h
      rw [lookupA, if_pos rfl]
      exact iff_of_false (Option.some_ne_none v)
        (not_not_intro (List.mem_cons_self k' (List.map Prod.fst t)))
    · rw [lookupA, if_neg h, ih]
      simp only [List.map_cons, List.mem_cons]
      constructor
      · intro hm hc
        rcases hc with hc | hc
        · exact h hc.symm
        · exact hm hc
      · intro hm hc
        exact hm (Or.inr hc)

lemma lookup2_insertMatch_of_some {agg : Agg} {net fid v : Str} (n f u : Str)
    (h : lookup2 agg net fid = some v) :
    lookup2 (insertMatch agg n f u) net fid = some v := by
  induction agg with
  | nil => simp [lookup2_nil] at h
  | cons q rest ih =>
    obtain ⟨k, files⟩ := q
    rw [lookup2_cons] at h
    rw [insertMatch_cons]
    by_cases hk : k = n
    · rw [if_pos hk]
      rw [lookup2_cons]
      by_cases hnet : k = net
      · rw [if_pos hnet]
        rw [if_pos hnet] at h
        cases hs : (lookupA f files).isSome
        · rw [if_neg Bool.false_ne_true]
          rw [lookupA_append, h]
        · rw [if_pos rfl]
          exact h
      · rw [if_neg hnet]
        rw [if_neg hnet] at h
        exact h
    · rw [if_neg hk, lookup2_cons]
      by_cases hnet : k = net
      · rw [if_pos hnet]
        rw [if_pos hnet] at h
        exact h
      · rw [if_neg hnet]
        rw [if_neg hnet] at h
        exact ih h

lemma lookup2_insertMatch_self {agg : Agg} {net fid : Str} (u : Str)
    (h : lookup2 agg net fid = none) :
    lookup2 (insertMatch agg net fid u) net fid = some u := by
  induction agg with
  | nil => simp [insertMatch, lookup2_cons, lookupA]
  | cons q rest ih =>
    obtain ⟨k, files⟩ := q
    rw [lookup2_cons] at h
    rw [insertMatch_cons]
    by_cases hk : k = net
    · rw [if_pos hk, lookup2_cons, if_pos hk]
      rw [if_pos hk] at h
      have hs : (lookupA fid files).isSome = false := by rw [h]; rfl
      rw [hs]
      simp only [Bool.false_eq_true, if_false]
      rw [lookupA_append, h, lookupA]
      simp
    · rw [if_neg hk, lookup2_cons, if_neg hk]
      rw [if_neg hk] at h
      exact ih h

lemma lookup2_insertMatch_of_ne {agg : Agg} {net fid : Str} (n f u : Str)
    (hne : ¬(net = n ∧ fid = f)) (h : lookup2 agg net fid = none) :
    lookup2 (insertMatch agg n f u) net fid = none := by
  induction agg with
  | nil =>
    simp only [insertMatch, lookup2_cons, lookup2_nil]
    by_cases hn : n = net
    · rw [if_pos hn]
      subst hn
      have hf : ¬ f = fid := fun hf => hne ⟨rfl, hf.symm⟩
      simp [lookupA, hf]
    · rw [if_neg hn]
  | cons q rest ih =>
    obtain ⟨k, files⟩ := q
    rw [lookup2_cons] at h
    rw [insertMatch_cons]
    by_cases hk : k = n
    · rw [if_pos hk, lookup2_cons]
      by_cases hnet : k = net
      · rw [if_pos hnet]
        rw [if_pos hnet] at h
        cases hs : (lookupA f files).isSome
        · rw [if_neg Bool.false_ne_true]
          rw [lookupA_append, h, lookupA]
          have hf : ¬ f = fid := by
            intro hf
            exact hne ⟨by rw [← hnet, hk], hf.symm⟩
          simp [lookupA, hf]
        · rw [if_pos rfl]
          exact h
      · rw [if_neg hnet]
        rw [if_neg hnet] at h
        exact h
    · rw [if_neg hk, lookup2_cons]
      by_cases hnet : k = net
      · rw [if_pos hnet]
        rw [if_pos hnet] at h
        exact h
      · rw [if_neg hnet]
        rw [if_neg hnet] at h
        exact ih h

lemma firstUrl_cons (m : MatchResult) (ms : List MatchResult) (net fid : Str) :
    firstUrl (m :: ms) net fid =
      if m.description = net ∧ m.file_id = fid then some m.url else firstUrl ms net fid := by
  by_cases h1 : m.description = net <;> by_cases h2 : m.file_id = fid <;>
    simp [firstUrl, List.find?_cons, h1, h2]

lemma lookup2_aggFrom_of_some {ms : List MatchResult} {agg : Agg} {net fid v : Str}
    (h : lookup2 agg net fid = some v) :
    lookup2 (aggFrom agg ms) net fid = some v := by
  induction ms generalizing agg with
  | nil => exact h
  | cons m ms ih => exact ih (lookup2_insertMatch_of_some _ _ _ h)

lemma lookup2_aggFrom_of_none {ms : List MatchResult} {agg : Agg} {net fid : Str}
    (h : lookup2 agg net fid = none) :
    lookup2 (aggFrom agg ms) net fid = firstUrl ms net fid := by
  induction ms generalizing agg with
  | nil => simpa [aggFrom, firstUrl] using h
  | cons m ms ih =>
    rw [firstUrl_cons]
    by_cases hm : m.description = net ∧ m.file_id = fid
    · rw [if_pos hm]
      obtain ⟨h1, h2⟩ := hm
      have hstep : lookup2 (step agg m) net fid = some m.url := by
        rw [step, h1, h2]
        exact lookup2_insertMatch_self m.url h
      show lookup2 (aggFrom (step agg m) ms) net fid = some m.url
      exact lookup2_aggFrom_of_some hstep
    · rw [if_neg hm]
      have hstep : lookup2 (step agg m) net fid = none := by
        rw [step]
        refine lookup2_insertMatch_of_ne _ _ _ ?_ h
        intro hc
        exact hm ⟨hc.1.symm, hc.2.symm⟩
      show lookup2 (aggFrom (step agg m) ms) net fid = firstUrl ms net fid
      exact ih hstep

/-! ### Aggregator: well-formedness -/

lemma keys_insertMatch (agg : Agg) (n f u : Str) :
    (insertMatch agg n f u).map Prod.fst =
      if (lookupA n agg).isSome then agg.map Prod.fst else agg.map Prod.fst ++ [n] := by
  induction agg with
  | nil => simp [insertMatch, lookupA]
  | cons q rest ih =>
    obtain ⟨k, files⟩ := q
    rw [insertMatch_cons]
    by_cases hk : k = n
    · rw [if_pos hk]
      have : (lookupA n ((k, files) :: rest)).isSome = true := by
        rw [lookupA, if_pos hk]
        rfl
      rw [this]
      simp
    · rw [if_neg hk]
      have hkey : lookupA n ((k, files) :: rest) = lookupA n rest := by
        rw [lookupA, if_neg hk]
      rw [hkey]
      cases hs : (lookupA n rest).isSome
      · rw [hs] at ih
        simp only [Bool.false_eq_true, if_false] at ih
        simp [ih]
      · rw [hs] at ih
        simp only [if_true] at ih
        simp [ih]

lemma wf_insertMatch {agg : Agg} (h : WFAgg agg) (n f u : Str) :
    WFAgg (insertMatch agg n f u) := by
  induction agg with
  | nil =>
    refine ⟨by simp [insertMatch], ?_⟩
    intro p hp
    simp only [insertMatch, List.mem_singleton] at hp
    subst hp
    simp
  | cons q rest ih =>
    obtain ⟨k, files⟩ := q
    obtain ⟨hnd, hinner⟩ := h
    simp only [List.map_cons, List.nodup_cons] at hnd
    obtain ⟨hkmem, hndrest⟩ := hnd
    rw [insertMatch_cons]
    by_cases hk : k = n
    · rw [if_pos hk]
      refine ⟨by simp only [List.map_cons, List.nodup_cons]; exact ⟨hkmem, hndrest⟩, ?_⟩
      intro p hp
      rcases List.mem_cons.mp hp with rfl | hp'
      · cases hs : (lookupA f files).isSome
        · rw [if_neg Bool.false_ne_true]
          have hfiles : (files.map Prod.fst).Nodup := hinner (k, files) (List.mem_cons_self _ _)
          have hfmem : f ∉ files.map Prod.fst := by
            rw [← lookupA_eq_none_iff]
            cases hlf : lookupA f files
            · rfl
            · rw [hlf] at hs
              cases hs
          simp only [List.map_append, List.map_cons, List.map_nil]
          rw [List.nodup_append]
          exact ⟨hfiles, List.nodup_singleton f, by simpa using hfmem⟩
        · rw [if_pos rfl]
          exact hinner (k, files) (List.mem_cons_self _ _)
      · exact hinner p (List.mem_cons_of_mem _ hp')
    · rw [if_neg hk]
      have hwrest : WFAgg rest :=
        ⟨hndrest, fun p hp => hinner p (List.mem_cons_of_mem _ hp)⟩
      have ihw := ih hwrest
      refine ⟨?_, ?_⟩
      · simp only [List.map_cons, List.nodup_cons]
        refine ⟨?_, ihw.1⟩
        rw [keys_insertMatch]
        cases hs : (lookupA n rest).isSome
        · rw [if_neg Bool.false_ne_true]
          simp only [List.mem_append, List.mem_singleton]
          intro hc
          rcases hc with hc | hc
          · exact hkmem hc
          · exact hk hc
        · rw [if_pos rfl]
          exact hkmem
      · intro p hp
        rcases List.mem_cons.mp hp with rfl | hp'
        · exact hinner (k, files) (List.mem_cons_self _ _)
        · exact ihw.2 p hp'

lemma wf_aggFrom {agg : Agg} (h : WFAgg agg) (ms : List MatchResult) :
    WFAgg (aggFrom agg ms) := by
  induction ms generalizing agg with
  | nil => exact h
  | cons m ms ih => exact ih (wf_insertMatch h _ _ _)

lemma wf_nil : WFAgg [] := ⟨List.nodup_nil, by simp⟩

lemma wf_processItem {agg : Agg} (h : WFAgg agg) (item : IndexRecord) :
    WFAgg (processItem agg item) := by
  rw [processItem]
  split
  · exact wf_aggFrom h _
  · exact h

lemma wf_runPipeline (records : List IndexRecord) : WFAgg (runPipeline records) := by
  rw [runPipeline]
  have : ∀ agg : Agg, WFAgg agg → WFAgg (records.foldl processItem agg) := by
    induction records with
    | nil => exact fun agg h => h
    | cons item records ih => exact fun agg h => ih _ (wf_processItem h item)
  exact this [] wf_nil

/-- Claim C3: after processing any sequence of match results the mapping
holds each (network, file id) pair at most once (all keys distinct), and
the URL stored for a pair is the one of the first match result carrying
that pair in input order; later URLs for the pair are dropped. -/
theorem aggregation_first_seen_policy :
    ∀ ms : List MatchResult,
      WFAgg (aggFrom [] ms) ∧
      ∀ net fid : Str, lookup2 (aggFrom [] ms) net fid = firstUrl ms net fid := by
  intro ms
  exact ⟨wf_aggFrom wf_nil ms, fun net fid => lookup2_aggFrom_of_none rfl⟩

/-! ### Aggregator: idempotence on repeated input -/

lemma insertMatch_of_some {agg : Agg} {n f v : Str} (u : Str)
    (h : lookup2 agg n f = some v) : insertMatch agg n f u = agg := by
  induction agg with
  | nil => simp [lookup2_nil] at h
  | cons q rest ih =>
    obtain ⟨k, files⟩ := q
    rw [lookup2_cons] at h
    rw [insertMatch_cons]
    by_cases hk : k = n
    · rw [if_pos hk]
      rw [if_pos hk] at h
      have hs : (lookupA f files).isSome = true := by rw [h]; rfl
      rw [if_pos hs]
    · rw [if_neg hk]
      rw [if_neg hk] at h
      rw [ih h]

lemma lookup2_step_isSome (agg : Agg) (m : MatchResult) :
    (lookup2 (step agg m) m.description m.file_id).isSome = true := by
  cases h : lookup2 agg m.description m.file_id with
  | none => rw [step, lookup2_insertMatch_self m.url h]; rfl
  | some v => rw [step, lookup2_insertMatch_of_some _ _ _ h]; rfl

lemma lookup2_aggFrom_isSome {agg : Agg} {net fid : Str}
    (h : (lookup2 agg net fid).isSome = true) (ms : List MatchResult) :
    (lookup2 (aggFrom agg ms) net fid).isSome = true := by
  cases hv : lookup2 agg net fid with
  | none => rw [hv] at h; cases h
  | some v => rw [lookup2_aggFrom_of_some hv]; rfl

lemma mem_lookup2_aggFrom (agg : Agg) {ms : List MatchResult} {m : MatchResult}
    (hm : m ∈ ms) :
    (lookup2 (aggFrom agg ms) m.description m.file_id).isSome = true := by
  induction ms generalizing agg with
  | nil => cases hm
  | cons m' ms ih =>
    show (lookup2 (aggFrom (step agg m') ms) m.description m.file_id).isSome = true
    rcases List.mem_cons.mp hm with rfl | hm'
    · exact lookup2_aggFrom_isSome (lookup2_step_isSome agg m) ms
    · exact ih _ hm'

lemma aggFrom_no_op {agg : Agg} {ms : List MatchResult}
    (h : ∀ m ∈ ms, (lookup2 agg m.description m.file_id).isSome = true) :
    aggFrom agg ms = agg := by
  induction ms with
  | nil => rfl
  | cons m ms ih =>
    have hstep : step agg m = agg := by
      have hh := h m (List.mem_cons_self _ _)
      cases hv : lookup2 agg m.description m.file_id with
      | none => rw [hv] at hh; cases hh
      | some v => exact insertMatch_of_some m.url hv
    show aggFrom (step agg m) ms = agg
    rw [hstep]
    exact ih (fun m' hm' => h m' (List.mem_cons_of_mem _ hm'))

/-- Lines 141-144 of `main`: the number of distinct file ids across all
networks (`len(all_file_ids)` after the set union). -/
def uniqueFileIdCount (agg : Agg) : Nat :=
  ((agg.map (fun p => p.2.map Prod.fst)).flatten).dedup.length

/-- Line 139 of `main`: `sum(len(files) for files in ...)`. -/
def total_unique_files (agg : Agg) : Nat :=
  (agg.map (fun p => p.2.length)).sum

/-- Claim C5: feeding the same record to the aggregator twice leaves the
per-network file-id mapping exactly as after feeding it once, so all the
derived counts are unchanged as well. -/
theorem aggregation_idempotent_on_record :
    ∀ (agg : Agg) (item : IndexRecord),
      processItem (processItem agg item) item = processItem agg item ∧
      uniqueFileIdCount (processItem (processItem agg item) item) =
        uniqueFileIdCount (processItem agg item) ∧
      total_unique_files (processItem (processItem agg item) item) =
        total_unique_files (processItem agg item) := by
  intro agg item
  have hmain : processItem (processItem agg item) item = processItem agg item := by
    rw [processItem, processItem]
    cases hb : (is_ny_ppo_network (item.in_network_files.getD [])).1
    · simp only [Bool.false_eq_true, if_false]
    · simp only [if_true]
      exact aggFrom_no_op (fun m hm => mem_lookup2_aggFrom agg hm)
  exact ⟨hmain, by rw [hmain], by rw [hmain]⟩

/-! ### Lexicographic order on strings (Python `sorted`) -/

/-- Python string comparison: lexicographic by code point. -/
def leB : Str → Str → Bool
  | [], _ => true
  | _ :: _, [] => false
  | a :: as, b :: bs => if a = b then leB as bs else decide (a < b)

/-- The order used by `sorted(...)`, as a relation. -/
def strLe (a b : Str) : Prop := leB a b = true

instance : DecidableRel strLe :=
  fun a b => (inferInstance : Decidable (leB a b = true))

lemma leB_total : ∀ a b : Str, leB a b = true ∨ leB b a = true := by
  intro a
  induction a with
  | nil => intro b; left; rfl
  | cons x xs ih =>
    intro b
    cases b with
    | nil => right; rfl
    | cons y ys =>
      by_cases hxy : x = y
      · subst hxy
        rcases ih ys with h | h
        · left; simp [leB, h]
        · right; simp [leB, h]
      · rcases lt_or_gt_of_ne hxy with h | h
        · left; simp [leB, hxy, h]
        · have h' : y < x := h
          have hyx : ¬ y = x := fun hyx => hxy hyx.symm
          right; simp [leB, hyx, h']

lemma leB_trans : ∀ a b c : Str, leB a b = true → leB b c = true → leB a c = true := by
  intro a
  induction a with
  | nil => intro b c _ _; rfl
  | cons x xs ih =>
    intro b c hab hbc
    cases b with
    | nil => simp [leB] at hab
    | cons y ys =>
      cases c with
      | nil => simp [leB] at hbc
      | cons z zs =>
        by_cases hxy : x = y <;> by_cases hyz : y = z
        · subst hxy; subst hyz
          simp [leB] at hab hbc ⊢
          exact ih ys zs hab hbc
        · subst hxy
          simp [leB, hyz] at hbc ⊢
          exact hbc
        · subst hyz
          simp [leB, hxy] at hab ⊢
          exact hab
        · simp [leB, hxy] at hab
          simp [leB, hyz] at hbc
          have hxz := lt_trans hab hbc
          simp [leB, ne_of_lt hxz, hxz]

instance : IsTotal Str strLe := ⟨leB_total⟩

instance : IsTrans Str strLe := ⟨leB_trans⟩

/-- The same order on key-value pairs, comparing keys. -/
def pairLe {α : Type} (p q : Str × α) : Prop := strLe p.1 q.1

instance {α : Type} : DecidableRel (@pairLe α) :=
  fun p q => (inferInstance : Decidable (leB p.1 q.1 = true))

instance {α : Type} : IsTotal (Str × α) (@pairLe α) := ⟨fun p q => leB_total p.1 q.1⟩

instance {α : Type} : IsTrans (Str × α) (@pairLe α) := ⟨fun p q r => leB_trans p.1 q.1 r.1⟩

/-- Python `sorted(keys)` (any correct sort agrees on distinct keys). -/
def sortStrs (l : List Str) : List Str := List.insertionSort strLe l

/-- Sorting key-value pairs by key. -/
def sortPairs {α : Type} (l : List (Str × α)) : List (Str × α) :=
  List.insertionSort (@pairLe α) l

/-! ### The report writer (lines 150-158) -/

/-- The header line `# {network} ({n} files)` (line 154). -/
def headerLine (network : Str) (n : Nat) : Str :=
  chars (r"# ") ++ network ++ chars (r" (") ++ (Nat.repr n).data ++ chars (r" files)")

/-- Lines 150-158 of `main`: for each network in sorted key order, write
the header comment, then one URL per file id in sorted order, then one
empty line; the model returns the list of written lines. -/
def report (agg : Agg) : List Str :=
  (sortStrs (agg.map Prod.fst)).flatMap (fun network =>
    let files := (lookupA network agg).getD []
    headerLine network files.length ::
      ((sortStrs (files.map Prod.fst)).map (fun fid => (lookupA fid files).getD []) ++ [[]]))

/-- The spec's wording of the grouped-text shape: sort the (network, files)
pairs by network, and inside each group sort the (file id, URL) pairs by
file id and print the URLs. -/
def reportSpec (agg : Agg) : List Str :=
  (sortPairs agg).flatMap (fun p =>
    headerLine p.1 p.2.length :: ((sortPairs p.2).map Prod.snd ++ [[]]))

lemma map_fst_sortPairs {α : Type} (l : List (Str × α)) :
    (sortPairs l).map Prod.fst = sortStrs (l.map Prod.fst) :=
  List.map_insertionSort (@pairLe α) strLe Prod.fst l (fun _ _ _ _ => Iff.rfl)

lemma lookupA_of_mem_nodup {α : Type} {l : List (Str × α)}
    (hnd : (l.map Prod.fst).Nodup) {p : Str × α} (hp : p ∈ l) :
    lookupA p.1 l = some p.2 := by
  induction l with
  | nil => cases hp
  | cons q t ih =>
    simp only [List.map_cons, List.nodup_cons] at hnd
    rcases List.mem_cons.mp hp with rfl | hp'
    · rw [lookupA, if_pos rfl]
    · have hne : q.1 ≠ p.1 := by
        intro hc
        exact hnd.1 (hc ▸ List.mem_map_of_mem Prod.fst hp')
      obtain ⟨k, v⟩ := q
      rw [lookupA, if_neg hne]
      exact ih hnd.2 hp'

lemma flatMap_congr_mem {α β : Type} {l : List α} {f g : α → List β}
    (h : ∀ a ∈ l, f a = g a) : l.flatMap f = l.flatMap g := by
  induction l with
  | nil => rfl
  | cons a t ih =>
    simp only [List.flatMap_cons]
    rw [h a (List.mem_cons_self _ _), ih (fun a' ha' => h a' (List.mem_cons_of_mem _ ha'))]

lemma report_eq_reportSpec {agg : Agg} (h : WFAgg agg) : report agg = reportSpec agg := by
  obtain ⟨hnd, hinner⟩ := h
  rw [report, reportSpec, ← map_fst_sortPairs, List.flatMap_map]
  apply flatMap_congr_mem
  intro p hp
  have hp' : p ∈ agg := by simpa [sortPairs] using hp
  have hlook : lookupA p.1 agg = some p.2 := lookupA_of_mem_nodup hnd hp'
  simp only [hlook, Option.getD_some]
  have hmap : (sortStrs (p.2.map Prod.fst)).map (fun fid => (lookupA fid p.2).getD []) =
      (sortPairs p.2).map Prod.snd := by
    rw [← map_fst_sortPairs, List.map_map]
    apply List.map_congr_left
    intro q hq
    have hq' : q ∈ p.2 := by simpa [sortPairs] using hq
    have : lookupA q.1 p.2 = some q.2 := lookupA_of_mem_nodup (hinner p hp') hq'
    simp [Function.comp, this]
  rw [hmap]

/-- Claim C6: the plain-text report groups the networks in lexicographic
key order; each group is one header line with the network name and its
file count, then one URL line per stored file in ascending file-id order,
then one blank separator line, and nothing else. -/
theorem report_grouped_and_sorted :
    ∀ records : List IndexRecord,
      report (runPipeline records) = reportSpec (runPipeline records) ∧
      List.Sorted pairLe (sortPairs (runPipeline records)) ∧
      (sortPairs (runPipeline records)).Perm (runPipeline records) ∧
      ∀ p ∈ runPipeline records,
        List.Sorted pairLe (sortPairs p.2) ∧ (sortPairs p.2).Perm p.2 := by
  intro records
  refine ⟨report_eq_reportSpec (wf_runPipeline records), ?_, ?_, ?_⟩
  · exact List.sorted_insertionSort _ _
  · exact List.perm_insertionSort _ _
  · intro p _
    exact ⟨List.sorted_insertionSort _ _, List.perm_insertionSort _ _⟩

/-- Claim C8: when no record matches, the run still produces a well-formed
empty result: an empty mapping, zero networks, zero unique file ids, and a
report with no lines at all (the model is total, so no error is possible). -/
theorem empty_input_gives_empty_report :
    ∀ records : List IndexRecord,
      (∀ item ∈ records, (is_ny_ppo_network (item.in_network_files.getD [])).1 = false) →
      runPipeline records = [] ∧ (runPipeline records).length = 0 ∧
        uniqueFileIdCount (runPipeline records) = 0 ∧ report (runPipeline records) = [] := by
  intro records h
  have hnil : runPipeline records = [] := by
    rw [runPipeline]
    have hgen : ∀ l : List IndexRecord,
        (∀ item ∈ l, (is_ny_ppo_network (item.in_network_files.getD [])).1 = false) →
        ∀ agg : Agg, l.foldl processItem agg = agg := by
      intro l
      induction l with
      | nil => intro _ agg; rfl
      | cons item l ih =>
        intro hl agg
        have hstep : processItem agg item = agg := by
          rw [processItem, hl item (List.mem_cons_self _ _)]
          simp
        show List.foldl processItem (processItem agg item) l = agg
        rw [hstep]
        exact ih (fun i hi => hl i (List.mem_cons_of_mem _ hi)) agg
    exact hgen records h []
  rw [hnil]
  exact ⟨rfl, rfl, rfl, rfl⟩

/-- Witness for Claim C8: a single record whose only entry is the
non-matching description "California PPO" yields the empty mapping and an
empty report. -/
theorem empty_input_gives_empty_report_witness :
    runPipeline [⟨some [⟨some (chars (r"California PPO")), some (chars (r"u"))⟩]⟩] = [] ∧
    (runPipeline [⟨some [⟨some (chars (r"California PPO")), some (chars (r"u"))⟩]⟩]).length
        = 0 ∧
    uniqueFileIdCount
        (runPipeline [⟨some [⟨some (chars (r"California PPO")), some (chars (r"u"))⟩]⟩]) = 0 ∧
    report (runPipeline
        [⟨some [⟨some (chars (r"California PPO")), some (chars (r"u"))⟩]⟩]) = [] :=
  empty_input_gives_empty_report
    [⟨some [⟨some (chars (r"California PPO")), some (chars (r"u"))⟩]⟩] (by decide)

/-- Witness for Claim C6 at a concrete two-record input producing two
networks, showing the grouped, sorted report shape on an actual run. -/
theorem report_grouped_and_sorted_witness :
    report (runPipeline
        [⟨some [⟨some (chars (r"Anthem NY: PPO B")), some (chars (r"http://h/b.gz"))⟩]⟩,
          ⟨some [⟨some (chars (r"Anthem NY: PPO A")), some (chars (r"http://h/a.gz"))⟩]⟩]) =
      reportSpec (runPipeline
        [⟨some [⟨some (chars (r"Anthem NY: PPO B")), some (chars (r"http://h/b.gz"))⟩]⟩,
          ⟨some [⟨some (chars (r"Anthem NY: PPO A")), some (chars (r"http://h/a.gz"))⟩]⟩]) ∧
    List.Sorted pairLe (sortPairs (runPipeline
        [⟨some [⟨some (chars (r"Anthem NY: PPO B")), some (chars (r"http://h/b.gz"))⟩]⟩,
          ⟨some [⟨some (chars (r"Anthem NY: PPO A")), some (chars (r"http://h/a.gz"))⟩]⟩])) ∧
    (sortPairs (runPipeline
        [⟨some [⟨some (chars (r"Anthem NY: PPO B")), some (chars (r"http://h/b.gz"))⟩]⟩,
          ⟨some [⟨some (chars (r"Anthem NY: PPO A")), some (chars (r"http://h/a.gz"))⟩]⟩])).Perm
      (runPipeline
        [⟨some [⟨some (chars (r"Anthem NY: PPO B")), some (chars (r"http://h/b.gz"))⟩]⟩,
          ⟨some [⟨some (chars (r"Anthem NY: PPO A")), some (chars (r"http://h/a.gz"))⟩]⟩]) ∧
    ∀ p ∈ runPipeline
        [⟨some [⟨some (chars (r"Anthem NY: PPO B")), some (chars (r"http://h/b.gz"))⟩]⟩,
          ⟨some [⟨some (chars (r"Anthem NY: PPO A")), some (chars (r"http://h/a.gz"))⟩]⟩],
      List.Sorted pairLe (sortPairs p.2) ∧ (sortPairs p.2).Perm p.2 :=
  report_grouped_and_sorted
    [⟨some [⟨some (chars (r"Anthem NY: PPO B")), some (chars (r"http://h/b.gz"))⟩]⟩,
      ⟨some [⟨some (chars (r"Anthem NY: PPO A")), some (chars (r"http://h/a.gz"))⟩]⟩]
